import Mathlib

/-!
# Verification of the strinterp string/stream interpolation engine

This file gives a shallow embedding, in Lean 4, of the core of the
`strinterp` Go package: the escape-aware scanner
(`readBytesUntilUnescDelim`), the colon split of a directive into name and
arguments (`bytes.SplitN(..., ":", 2)`), the registry (`AddFormat`), the
interpolation engine (`InterpWriter` / `InterpStr`), and the layered
writer stack (`WriterStack.Push` / `WriterStack.Finish` and the private
`writerStack.Close`).

Bytes are modelled as `Nat` (Go `byte` values are a subset), byte strings
as `List Nat`, Go `interface brace-brace` argument values as the inductive
`Val`, and the error values of the package as the inductive `Err`.  A Go
formatter (a function writing to an `io.Writer` and possibly failing) is
modelled as a pure function returning the bytes it wrote together with an
optional error.  The destination sink is modelled as the pure byte buffer
that `InterpStr` uses, so engine results are triples
`(output bytes, optional error, remaining arguments)`.
-/

/-- Go `interface` values handed to the interpolator, as a closed variant:
the shapes the `raw` formatter recognises (`string`, `[]byte`, `io.Reader`,
the reader carrying the bytes it will yield), plus an opaque "any other
value" shape. -/
inductive Val where
  | str (s : List Nat)
  | bytes (b : List Nat)
  | reader (r : List Nat)
  | other (n : Nat)
deriving DecidableEq, Repr

/-- The error values of the package that the embedded core can produce. -/
inductive Err where
  | incompleteFormatString
  | unknownFormatter (name : List Nat)
  | rawUnknownType
  | alreadyExists (name : List Nat)
  | custom (n : Nat)
deriving DecidableEq, Repr

/-- Result of `readBytesUntilUnescDelim` on a buffer: either the delimiter
was found (`found out rest`, with `rest` the bytes left in the buffer after
the consumed delimiter), or the buffer ran dry first (`eof out`, Go's
`io.EOF` case, `out` being everything read so far). -/
inductive ReadResult where
  | found (out : List Nat) (rest : List Nat)
  | eof (out : List Nat)
deriving DecidableEq, Repr

/-- Prepend a byte to the output field (the Go `result = append(result, b)`
at the head of the recursion), leaving the found/eof status alone. -/
def ReadResult.push (b : Nat) : ReadResult → ReadResult
  | .found out rest => .found (b :: out) rest
  | .eof out => .eof (b :: out)

/-- The output bytes of a scan. -/
def ReadResult.out : ReadResult → List Nat
  | .found o _ => o
  | .eof o => o

/-- Did the scan end with `io.EOF` (input exhausted before the delimiter)? -/
def ReadResult.isEof : ReadResult → Bool
  | .found _ _ => false
  | .eof _ => true

/-- Embedding of `readBytesUntilUnescDelim` (src/parsing.go:24-45 and
src/strinterp.go:300-321): reads bytes until the delimiter is found not
preceded by a backslash (byte 92); a backslash causes the next byte to be
copied blindly; a trailing backslash with nothing after it is dropped; the
delimiter itself is not returned. -/
def readBytesUntilUnescDelim (delim : Nat) : List Nat → ReadResult
  | [] => .eof []
  | b :: rest =>
    if b = 92 then
      match rest with
      | [] => .eof []
      | c :: rest' => (readBytesUntilUnescDelim delim rest').push c
    else if b = delim then .found [] rest
    else (readBytesUntilUnescDelim delim rest).push b

/-- Specification-side token stream of a byte sequence under the escaping
rule of spec section 4.1: a backslash makes the following byte a verbatim
(`esc`) token with any delimiter meaning suppressed; every other byte is a
plain (`lit`) token; a trailing lone backslash produces nothing. -/
inductive Tok where
  | esc (b : Nat)
  | lit (b : Nat)
deriving DecidableEq, Repr

/-- The byte a token stands for. -/
def Tok.val : Tok → Nat
  | .esc b => b
  | .lit b => b

/-- Is this token an active occurrence of the delimiter `d`?  Only an
unescaped (`lit`) delimiter byte counts. -/
def Tok.isDelim (d : Nat) : Tok → Bool
  | .esc _ => false
  | .lit b => b = d

/-- Tokenization of a raw byte sequence under the escaping rule. -/
def tokenize : List Nat → List Tok
  | [] => []
  | b :: rest =>
    if b = 92 then
      match rest with
      | [] => []
      | c :: rest' => .esc c :: tokenize rest'
    else .lit b :: tokenize rest

theorem ReadResult.out_push (b : Nat) (r : ReadResult) :
    (r.push b).out = b :: r.out := by
  cases r <;> rfl

theorem ReadResult.isEof_push (b : Nat) (r : ReadResult) :
    (r.push b).isEof = r.isEof := by
  cases r <;> rfl

/-- The scanner returns exactly the values of the tokens preceding the
first active delimiter token. -/
theorem scan_out_spec (delim : Nat) (input : List Nat) :
    (readBytesUntilUnescDelim delim input).out
      = ((tokenize input).takeWhile (fun t => !(t.isDelim delim))).map Tok.val := by
  induction input using tokenize.induct with
  | case1 => rfl
  | case2 => rfl
  | case3 c rest' ih =>
    simp [readBytesUntilUnescDelim, tokenize, ReadResult.out_push,
      List.takeWhile_cons, Tok.isDelim, Tok.val, ih]
  | case4 b rest hb ih =>
    rw [readBytesUntilUnescDelim.eq_def, tokenize.eq_def]
    simp only [if_neg hb]
    by_cases hd : b = delim
    · simp [hd, List.takeWhile_cons, Tok.isDelim, ReadResult.out]
    · simp [hd, List.takeWhile_cons, Tok.isDelim, ReadResult.out_push, ih, Tok.val]

/-- The scanner reports `io.EOF` exactly when no active delimiter token
occurs in the input. -/
theorem scan_isEof_spec (delim : Nat) (input : List Nat) :
    (readBytesUntilUnescDelim delim input).isEof = true
      ↔ ∀ t ∈ tokenize input, t.isDelim delim = false := by
  induction input using tokenize.induct with
  | case1 => simp [readBytesUntilUnescDelim, tokenize, ReadResult.isEof]
  | case2 => simp [readBytesUntilUnescDelim, tokenize, ReadResult.isEof]
  | case3 c rest' ih =>
    rw [readBytesUntilUnescDelim.eq_def, tokenize.eq_def]
    simp only [reduceIte, ReadResult.isEof_push, List.mem_cons]
    constructor
    · intro h t ht
      rcases ht with rfl | ht
      · rfl
      · exact (ih.mp h) t ht
    · intro h
      exact ih.mpr (fun t ht => h t (Or.inr ht))
  | case4 b rest hb ih =>
    rw [readBytesUntilUnescDelim.eq_def, tokenize.eq_def]
    simp only [if_neg hb]
    by_cases hd : b = delim
    · simp [hd, ReadResult.isEof, Tok.isDelim]
    · simp only [hd, if_false, ReadResult.isEof_push, List.mem_cons]
      constructor
      · intro h t ht
        rcases ht with rfl | ht
        · simp [Tok.isDelim, hd]
        · exact (ih.mp h) t ht
      · intro h
        exact ih.mpr (fun t ht => h t (Or.inr ht))

/-- Inversion for `ReadResult.push` on a `found` result. -/
theorem ReadResult.push_eq_found {b : Nat} {r : ReadResult} {out rest : List Nat} :
    r.push b = .found out rest → ∃ o, r = .found o rest ∧ out = b :: o := by
  cases r with
  | found o rr =>
    intro h
    simp only [ReadResult.push, ReadResult.found.injEq] at h
    exact ⟨o, by simp [h.1.symm, h.2.symm]⟩
  | eof o => intro h; simp [ReadResult.push] at h

/-- When the scanner finds the delimiter, the unconsumed rest of the
buffer is strictly shorter than the input (at least the delimiter was
consumed). -/
theorem scan_found_rest_length {delim : Nat} :
    ∀ {input out rest : List Nat},
      readBytesUntilUnescDelim delim input = .found out rest →
      rest.length < input.length := by
  intro input
  induction input using tokenize.induct with
  | case1 => intro out rest h; simp [readBytesUntilUnescDelim] at h
  | case2 => intro out rest h; simp [readBytesUntilUnescDelim] at h
  | case3 c rest' ih =>
    intro out rest h
    simp only [readBytesUntilUnescDelim, if_pos rfl] at h
    obtain ⟨o, hr, -⟩ := ReadResult.push_eq_found h
    have := ih hr
    simp only [List.length_cons]
    omega
  | case4 b rest0 hb ih =>
    intro out rest h
    rw [readBytesUntilUnescDelim.eq_def] at h
    simp only [if_neg hb] at h
    by_cases hd : b = delim
    · simp only [hd, eq_self_iff_true, if_true, ReadResult.found.injEq] at h
      obtain ⟨-, h2⟩ := h
      subst h2
      simp
    · simp only [if_neg hd] at h
      obtain ⟨o, hr, -⟩ := ReadResult.push_eq_found h
      have := ih hr
      simp only [List.length_cons]
      omega

/-- A Go `Formatter` (src/strinterp.go:123) modelled purely: from the
argument value and the optional colon parameters it yields the bytes it
writes to its sink together with an optional error; on error the bytes
written before failing are kept (Go streaming, no rollback). -/
abbrev Formatter : Type := Val → Option (List Nat) → List Nat × Option Err

/-- The built-in `raw` formatter (src/strinterp.go:271-285): a string,
byte slice or reader is emitted as its bytes; any other value yields
`ErrRawUnknownType`. -/
def raw : Formatter := fun v _ =>
  match v with
  | .str s => (s, none)
  | .bytes b => (b, none)
  | .reader r => (r, none)
  | .other _ => ([], some .rawUnknownType)

/-- The `Interpolator` registry (src/strinterp.go:165-167): the map from
format names to formatters, modelled as an association list. -/
abbrev Interpolator : Type := List (List Nat × Formatter)

/-- Go map lookup `i.interpolators[format]` (nil, i.e. `none`, when the
name is absent). -/
def lookupFormatter : Interpolator → List Nat → Option Formatter
  | [], _ => none
  | (k, f) :: rest, name => if k = name then some f else lookupFormatter rest name

/-- Embedding of `NewInterpolator` (src/strinterp.go:182-186): only the RAW formatter
is preloaded; the name RAW is the bytes [82, 65, 87]. -/
def NewInterpolator : Interpolator := [([82, 65, 87], raw)]

/-- Embedding of `AddFormat` (src/strinterp.go:191-199): if the name is already bound
the map is left alone and `ErrAlreadyExists(name)` is returned, else the
handler is stored under the name. -/
def AddFormat (i : Interpolator) (format : List Nat) (handler : Formatter) :
    Interpolator × Option Err :=
  match lookupFormatter i format with
  | some _ => (i, some (.alreadyExists format))
  | none => (i ++ [(format, handler)], none)

/-- Embedding of `bytes.SplitN(rawFormat, ":", 2)` together with the chunk unpacking of
src/strinterp.go:234-239: the first component is everything before the
first colon (byte 58); the second is `none` when no colon occurs (the Go
nil slice `formatArgs`) and `some` of the remainder otherwise. -/
def splitFirstColon : List Nat → List Nat × Option (List Nat)
  | [] => ([], none)
  | b :: rest =>
    if b = 58 then ([], some rest)
    else
      let (n, a) := splitFirstColon rest
      (b :: n, a)

/-- The bytes of " error: No arg;", the suffix of the placeholder text
`"%" + format + " error: No arg;"` that `InterpWriter` writes when the
argument list is exhausted (src/strinterp.go:262). -/
def noArgSuffix : List Nat :=
  [32, 101, 114, 114, 111, 114, 58, 32, 78, 111, 32, 97, 114, 103, 59]

/-- Prefix this iteration's writes onto the result of the remaining
iterations of the interpolation loop. -/
def prependOut (pre : List Nat) :
    List Nat × Option Err × List Val → List Nat × Option Err × List Val
  | (o, e, a) => (pre ++ o, e, a)

/-- Embedding of `Interpolator.InterpWriter` (src/strinterp.go:213-269),
with the destination sink taken to be a pure byte buffer (the
`bytes.Buffer` that `InterpStr` supplies; its writes never fail).  Per
loop iteration: scan to an unescaped `%` (byte 37), flushing the literal
span; at end of input return what was flushed with no error; otherwise
scan the directive body to an unescaped `;` (byte 59), `io.EOF` there
being `ErrIncompleteFormatString`; split the body at the first colon; the
body `%` is the escape directive emitting a literal `%` and consuming no
argument; otherwise look up the formatter (unknown names are fatal), pop
the next argument and run the formatter, or — if the arguments are
exhausted — write the placeholder text `%name error: No arg;` and carry
on.  The result is (bytes written, optional error, arguments left). -/
def InterpWriter (i : Interpolator) (input : List Nat) (args : List Val) :
    List Nat × Option Err × List Val :=
  match h1 : readBytesUntilUnescDelim 37 input with
  | .eof lit => (lit, none, args)
  | .found lit rest =>
    match h2 : readBytesUntilUnescDelim 59 rest with
    | .eof _ => (lit, some .incompleteFormatString, args)
    | .found rawFormat rest2 =>
      let chunks := splitFirstColon rawFormat
      if chunks.1 = [37] then
        prependOut (lit ++ [37]) (InterpWriter i rest2 args)
      else
        match lookupFormatter i chunks.1 with
        | none => (lit, some (.unknownFormatter chunks.1), args)
        | some f =>
          match args with
          | thisArg :: args' =>
            match f thisArg chunks.2 with
            | (fo, some e) => (lit ++ fo, some e, args')
            | (fo, none) => prependOut (lit ++ fo) (InterpWriter i rest2 args')
          | [] =>
            prependOut (lit ++ 37 :: chunks.1 ++ noArgSuffix)
              (InterpWriter i rest2 [])
termination_by input.length
decreasing_by
  all_goals
    exact lt_trans (scan_found_rest_length h2) (scan_found_rest_length h1)

/-- Embedding of `InterpStr` (src/strinterp.go:203-210): interpolate into a fresh
buffer; if `InterpWriter` errored, return the empty string with that
error, else the buffer contents. -/
def InterpStr (i : Interpolator) (format : List Nat) (args : List Val) :
    List Nat × Option Err :=
  match InterpWriter i format args with
  | (out, none, _) => (out, none)
  | (_, some e, _) => ([], some e)

/-- A sink layer (an `io.Writer`): identified by `id`, optionally
exposing the close capability (`io.Closer`); invoking the capability
either succeeds or yields the error `closeErr`. -/
structure W where
  id : Nat
  hasCloser : Bool
  closeErr : Option Nat
deriving DecidableEq, Repr

/-- An `Encoder` (`func(io.Writer, []byte) (io.Writer, error)`, declared
for src/parsing.go and src/writerstack.go): from the current top layer and
the optional arguments it produces the wrapping layer, or fails
(`none`). -/
abbrev Encoder : Type := W → Option (List Nat) → Option W

/-- Embedding of `WriterStack` (src/writerstack.go:16-19) and its unexported twin
`writerStack` (src/writerstack.go:70-73): the current top writer plus the
list of pushed component layers in append order. -/
structure WriterStack where
  writer : W
  components : List W
deriving DecidableEq, Repr

/-- Embedding of `NewWriterStack` (src/writerstack.go:23-25): the base writer on the
bottom, no components. -/
def NewWriterStack (w : W) : WriterStack := ⟨w, []⟩

/-- Embedding of `WriterStack.Push` (src/writerstack.go:31-42) and `writerStack.push`
(src/writerstack.go:75-86): apply the encoder to the current top; on
success the returned writer becomes the top and is appended to the
component list — deliberately never the base writer itself; on error the
stack is no longer valid (`none`). -/
def WriterStackPush (ws : WriterStack) (enc : Encoder) (args : Option (List Nat)) :
    Option WriterStack :=
  match enc ws.writer args with
  | none => none
  | some w' => some ⟨w', ws.components ++ [w']⟩

/-- A sequence of `Push` calls, stopping at the first failing one. -/
def runPushes : WriterStack → List (Encoder × Option (List Nat)) → Option WriterStack
  | ws, [] => some ws
  | ws, (enc, args) :: rest =>
    match WriterStackPush ws enc args with
    | none => none
    | some ws' => runPushes ws' rest

/-- The close loop shared verbatim by `WriterStack.Finish`
(src/writerstack.go:47-61) and `writerStack.Close`
(src/writerstack.go:90-102), on the already-reversed component list and
instrumented with the trace of layers actually closed: a layer that is
not an `io.Closer` is skipped; a closer layer is closed, the first close
error being returned at once, abandoning the remaining layers. -/
def closeLoop : List W → List W × Option Nat
  | [] => ([], none)
  | w :: rest =>
    if w.hasCloser then
      match w.closeErr with
      | some e => ([w], some e)
      | none =>
        let (ws, r) := closeLoop rest
        (w :: ws, r)
    else closeLoop rest

/-- Embedding of `WriterStack.Finish`: close the components in reverse append order,
never touching the base writer. -/
def WriterStackFinish (ws : WriterStack) : List W × Option Nat :=
  closeLoop ws.components.reverse

/-- Embedding of `writerStack.Close`: the identical loop of the unexported variant. -/
def writerStackClose (ws : WriterStack) : List W × Option Nat :=
  closeLoop ws.components.reverse

/-- Finalization as spec section 4.4 words it, on a layer list in
most-recently-pushed-first order: of the layers exposing a finalize/close
capability, the error-free prefix is closed; if a failing closer follows,
it too is closed (its error is the result) and everything after it is
skipped. -/
def specCloseSeq (order : List W) : List W × Option Nat :=
  let closers := order.filter (fun w => w.hasCloser)
  match closers.dropWhile (fun w => w.closeErr.isNone) with
  | [] => (closers.takeWhile (fun w => w.closeErr.isNone), none)
  | bad :: _ => (closers.takeWhile (fun w => w.closeErr.isNone) ++ [bad], bad.closeErr)

/-- Finalization of a pipeline as the spec describes it: visit the layer
list in reverse of append order and close per `specCloseSeq`. -/
def specFinalize (components : List W) : List W × Option Nat :=
  specCloseSeq components.reverse

/-- The code's close loop agrees with the spec's
filter/prefix-truncation description. -/
theorem closeLoop_eq_specCloseSeq : ∀ l : List W, closeLoop l = specCloseSeq l := by
  intro l
  induction l with
  | nil => rfl
  | cons w rest ih =>
    by_cases hc : w.hasCloser
    · cases he : w.closeErr with
      | some e =>
        simp [closeLoop, specCloseSeq, hc, he, List.filter_cons,
          List.dropWhile_cons, List.takeWhile_cons]
      | none =>
        simp only [closeLoop, hc, if_true, he, ih]
        simp only [specCloseSeq, List.filter_cons, hc, if_pos rfl,
          List.dropWhile_cons, List.takeWhile_cons, he, Option.isNone_none,
          if_true]
        cases hdw : (List.filter (fun w => w.hasCloser) rest).dropWhile
            (fun w => w.closeErr.isNone) with
        | nil => simp [hdw]
        | cons bad tail => simp [hdw]
    · simp [closeLoop, specCloseSeq, hc, List.filter_cons, ih]

/-- Every layer the close loop touches comes from the list it was
given. -/
theorem closeLoop_subset : ∀ l : List W, ∀ w ∈ (closeLoop l).1, w ∈ l := by
  intro l
  induction l with
  | nil => intro w hw; simp [closeLoop] at hw
  | cons x rest ih =>
    intro w hw
    by_cases hc : x.hasCloser
    · cases he : x.closeErr with
      | some e =>
        simp only [closeLoop, hc, if_true, he] at hw
        simp only [List.mem_singleton] at hw
        simp [hw]
      | none =>
        simp only [closeLoop, hc, if_true, he] at hw
        rcases List.mem_cons.mp hw with rfl | hw'
        · simp
        · exact List.mem_cons_of_mem _ (ih w hw')
    · simp only [closeLoop, hc, if_false] at hw
      exact List.mem_cons_of_mem _ (ih w hw)

/-- If no encoder invocation in the sequence ever returns the base
writer itself, a component list that starts free of the base writer stays
free of it across any successful sequence of pushes. -/
theorem runPushes_base_not_mem :
    ∀ (pushes : List (Encoder × Option (List Nat))) (ws ws' : WriterStack) (base : W),
      base ∉ ws.components →
      (∀ p ∈ pushes, ∀ w w', p.1 w p.2 = some w' → w' ≠ base) →
      runPushes ws pushes = some ws' →
      base ∉ ws'.components := by
  intro pushes
  induction pushes with
  | nil =>
    intro ws ws' base hbase henc hrun
    simp only [runPushes, Option.some.injEq] at hrun
    subst hrun
    exact hbase
  | cons p rest ih =>
    intro ws ws' base hbase henc hrun
    simp only [runPushes] at hrun
    cases hp : WriterStackPush ws p.1 p.2 with
    | none => rw [hp] at hrun; cases hrun
    | some ws1 =>
      rw [hp] at hrun
      refine ih ws1 ws' base ?_ (fun q hq => henc q (List.mem_cons_of_mem _ hq)) hrun
      simp only [WriterStackPush] at hp
      cases he : p.1 ws.writer p.2 with
      | none => rw [he] at hp; cases hp
      | some w' =>
        rw [he] at hp
        simp only [Option.some.injEq] at hp
        subst hp
        simp only [List.mem_append, List.mem_singleton]
        rintro (hin | rfl)
        · exact hbase hin
        · exact henc p (List.mem_cons_self p rest) ws.writer base he rfl

/-- Unfolding: the literal tail of the template (no unescaped `%` left)
is flushed and the loop returns without error. -/
theorem IW_eof {i : Interpolator} {input : List Nat} {args : List Val} {lit : List Nat}
    (h : readBytesUntilUnescDelim 37 input = .eof lit) :
    InterpWriter i input args = (lit, none, args) := by
  rw [InterpWriter.eq_def]
  split
  · next lit' heq => rw [h] at heq; cases heq; rfl
  · next lit' rest heq => rw [h] at heq; cases heq

/-- Unfolding: a directive is opened but the input ends before an
unescaped `;`: the literal span stays written and
`ErrIncompleteFormatString` is returned. -/
theorem IW_incomplete {i : Interpolator} {input : List Nat} {args : List Val}
    {lit rest x : List Nat}
    (h1 : readBytesUntilUnescDelim 37 input = .found lit rest)
    (h2 : readBytesUntilUnescDelim 59 rest = .eof x) :
    InterpWriter i input args = (lit, some .incompleteFormatString, args) := by
  rw [InterpWriter.eq_def]
  split
  · next lit' heq => rw [h1] at heq; cases heq
  · next lit' rest' heq =>
    rw [h1] at heq; cases heq
    split
    · next y heq2 => rfl
    · next rf r2 heq2 => rw [h2] at heq2; cases heq2

/-- Unfolding: the escape directive `%%;` (directive name exactly `%`)
emits a literal `%`, consumes nothing, and the loop continues. -/
theorem IW_escape {i : Interpolator} {input : List Nat} {args : List Val}
    {lit rest rf rest2 : List Nat}
    (h1 : readBytesUntilUnescDelim 37 input = .found lit rest)
    (h2 : readBytesUntilUnescDelim 59 rest = .found rf rest2)
    (h3 : (splitFirstColon rf).1 = [37]) :
    InterpWriter i input args = prependOut (lit ++ [37]) (InterpWriter i rest2 args) := by
  rw [InterpWriter.eq_def]
  split
  · next lit' heq => rw [h1] at heq; cases heq
  · next lit' rest' heq =>
    rw [h1] at heq; cases heq
    split
    · next y heq2 => rw [h2] at heq2; cases heq2
    · next rf' r2 heq2 =>
      rw [h2] at heq2; cases heq2
      rw [if_pos h3]

/-- Unfolding: an unknown directive name aborts with
`ErrUnknownFormatter`, the literal span staying written. -/
theorem IW_unknown {i : Interpolator} {input : List Nat} {args : List Val}
    {lit rest rf rest2 : List Nat}
    (h1 : readBytesUntilUnescDelim 37 input = .found lit rest)
    (h2 : readBytesUntilUnescDelim 59 rest = .found rf rest2)
    (h3 : (splitFirstColon rf).1 ≠ [37])
    (h4 : lookupFormatter i (splitFirstColon rf).1 = none) :
    InterpWriter i input args
      = (lit, some (.unknownFormatter (splitFirstColon rf).1), args) := by
  rw [InterpWriter.eq_def]
  split
  · next lit' heq => rw [h1] at heq; cases heq
  · next lit' rest' heq =>
    rw [h1] at heq; cases heq
    split
    · next y heq2 => rw [h2] at heq2; cases heq2
    · next rf' r2 heq2 =>
      rw [h2] at heq2; cases heq2
      rw [if_neg h3, h4]

/-- Unfolding: a registered directive with an argument available pops it
and runs the formatter; a formatter error aborts with the partial output
kept. -/
theorem IW_formatter_err {i : Interpolator} {input : List Nat} {a : Val}
    {args' : List Val} {lit rest rf rest2 fo : List Nat} {f : Formatter} {e : Err}
    (h1 : readBytesUntilUnescDelim 37 input = .found lit rest)
    (h2 : readBytesUntilUnescDelim 59 rest = .found rf rest2)
    (h3 : (splitFirstColon rf).1 ≠ [37])
    (h4 : lookupFormatter i (splitFirstColon rf).1 = some f)
    (h5 : f a (splitFirstColon rf).2 = (fo, some e)) :
    InterpWriter i input (a :: args') = (lit ++ fo, some e, args') := by
  rw [InterpWriter.eq_def]
  split
  · next lit' heq => rw [h1] at heq; cases heq
  · next lit' rest' heq =>
    rw [h1] at heq; cases heq
    split
    · next y heq2 => rw [h2] at heq2; cases heq2
    · next rf' r2 heq2 =>
      rw [h2] at heq2; cases heq2
      rw [if_neg h3, h4]
      simp only [h5]

/-- Unfolding: a registered directive with an argument available pops it,
runs the formatter successfully, and the loop continues. -/
theorem IW_formatter_ok {i : Interpolator} {input : List Nat} {a : Val}
    {args' : List Val} {lit rest rf rest2 fo : List Nat} {f : Formatter}
    (h1 : readBytesUntilUnescDelim 37 input = .found lit rest)
    (h2 : readBytesUntilUnescDelim 59 rest = .found rf rest2)
    (h3 : (splitFirstColon rf).1 ≠ [37])
    (h4 : lookupFormatter i (splitFirstColon rf).1 = some f)
    (h5 : f a (splitFirstColon rf).2 = (fo, none)) :
    InterpWriter i input (a :: args')
      = prependOut (lit ++ fo) (InterpWriter i rest2 args') := by
  rw [InterpWriter.eq_def]
  split
  · next lit' heq => rw [h1] at heq; cases heq
  · next lit' rest' heq =>
    rw [h1] at heq; cases heq
    split
    · next y heq2 => rw [h2] at heq2; cases heq2
    · next rf' r2 heq2 =>
      rw [h2] at heq2; cases heq2
      rw [if_neg h3, h4]
      simp only [h5]

/-- Unfolding: a registered directive whose argument list is exhausted
writes the placeholder text `%name error: No arg;` itself — the formatter
is never invoked — and the loop continues without error. -/
theorem IW_no_arg {i : Interpolator} {input : List Nat}
    {lit rest rf rest2 : List Nat} {f : Formatter}
    (h1 : readBytesUntilUnescDelim 37 input = .found lit rest)
    (h2 : readBytesUntilUnescDelim 59 rest = .found rf rest2)
    (h3 : (splitFirstColon rf).1 ≠ [37])
    (h4 : lookupFormatter i (splitFirstColon rf).1 = some f) :
    InterpWriter i input []
      = prependOut (lit ++ 37 :: (splitFirstColon rf).1 ++ noArgSuffix)
          (InterpWriter i rest2 []) := by
  rw [InterpWriter.eq_def]
  split
  · next lit' heq => rw [h1] at heq; cases heq
  · next lit' rest' heq =>
    rw [h1] at heq; cases heq
    split
    · next y heq2 => rw [h2] at heq2; cases heq2
    · next rf' r2 heq2 =>
      rw [h2] at heq2; cases heq2
      rw [if_neg h3, h4]

/-- Every token of a byte sequence stands for a byte occurring in it. -/
theorem tokenize_val_mem :
    ∀ {input : List Nat}, ∀ t ∈ tokenize input, t.val ∈ input := by
  intro input
  induction input using tokenize.induct with
  | case1 => intro t ht; simp [tokenize] at ht
  | case2 => intro t ht; simp [tokenize] at ht
  | case3 c rest' ih =>
    intro t ht
    rw [tokenize.eq_def] at ht
    simp only [reduceIte, List.mem_cons] at ht
    rcases ht with heq | ht
    · subst heq; simp [Tok.val]
    · have := ih t ht
      simp only [List.mem_cons]
      tauto
  | case4 b rest hb ih =>
    intro t ht
    rw [tokenize.eq_def] at ht
    simp only [if_neg hb, List.mem_cons] at ht
    rcases ht with heq | ht
    · subst heq; simp [Tok.val]
    · have := ih t ht
      simp only [List.mem_cons]
      tauto

/-- On input free of the delimiter byte, the scan signals `io.EOF` and
returns the whole escape-processed input. -/
theorem scan_no_delim_eof {delim : Nat} {input : List Nat} (h : delim ∉ input) :
    readBytesUntilUnescDelim delim input = .eof ((tokenize input).map Tok.val) := by
  have hall : ∀ t ∈ tokenize input, t.isDelim delim = false := by
    intro t ht
    cases t with
    | esc b => rfl
    | lit b =>
      simp only [Tok.isDelim, decide_eq_false_iff_not]
      intro hb
      subst hb
      exact h (tokenize_val_mem _ ht)
  have heof := (scan_isEof_spec delim input).mpr hall
  have hout := scan_out_spec delim input
  have htw : (tokenize input).takeWhile (fun t => !(t.isDelim delim)) = tokenize input :=
    List.takeWhile_eq_self_iff.mpr (fun t ht => by simp [hall t ht])
  cases hr : readBytesUntilUnescDelim delim input with
  | found o r => rw [hr] at heof; cases heof
  | eof o =>
    rw [hr] at hout
    simp only [ReadResult.out, htw] at hout
    rw [hout]

/-- With an empty argument list, the interpolation loop ends with an
empty remaining-argument list. -/
theorem IW_rem_nil (i : Interpolator) :
    ∀ input : List Nat, (InterpWriter i input []).2.2 = [] := by
  suffices h : ∀ n, ∀ input : List Nat, input.length ≤ n →
      (InterpWriter i input []).2.2 = [] by
    exact fun input => h input.length input le_rfl
  intro n
  induction n with
  | zero =>
    intro input hlen
    have hnil : input = [] := List.length_eq_zero.mp (Nat.le_zero.mp hlen)
    subst hnil
    rw [IW_eof (show readBytesUntilUnescDelim 37 [] = .eof [] from rfl)]
  | succ n ihn =>
    intro input hlen
    cases h1 : readBytesUntilUnescDelim 37 input with
    | eof lit => rw [IW_eof h1]
    | found lit rest =>
      cases h2 : readBytesUntilUnescDelim 59 rest with
      | eof x => rw [IW_incomplete h1 h2]
      | found rf rest2 =>
        have hlen2 : rest2.length ≤ n := by
          have := lt_trans (scan_found_rest_length h2) (scan_found_rest_length h1)
          omega
        by_cases h3 : (splitFirstColon rf).1 = [37]
        · rw [IW_escape h1 h2 h3]
          have hr := ihn rest2 hlen2
          rcases hrec : InterpWriter i rest2 [] with ⟨o, e, a⟩
          rw [hrec] at hr
          simpa [prependOut] using hr
        · cases h4 : lookupFormatter i (splitFirstColon rf).1 with
          | none => rw [IW_unknown h1 h2 h3 h4]
          | some f =>
            rw [IW_no_arg h1 h2 h3 h4]
            have hr := ihn rest2 hlen2
            rcases hrec : InterpWriter i rest2 [] with ⟨o, e, a⟩
            rw [hrec] at hr
            simpa [prependOut] using hr

/-- A stage with no colon byte at all keeps its bytes as the name and
yields the distinguished no-arguments value (Go's nil slice). -/
theorem splitFirstColon_no_colon {s : List Nat} (h : 58 ∉ s) :
    splitFirstColon s = (s, none) := by
  induction s with
  | nil => rfl
  | cons b rest ih =>
    have hb : ¬(b = 58) := fun hb => h (by simp [hb])
    have hrest : 58 ∉ rest := fun hr => h (List.mem_cons_of_mem _ hr)
    simp [splitFirstColon, hb, ih hrest]

/-- The split happens at the first colon byte: everything before it is the
name, everything after it the (present, possibly empty) arguments. -/
theorem splitFirstColon_append {n a : List Nat} (h : 58 ∉ n) :
    splitFirstColon (n ++ 58 :: a) = (n, some a) := by
  induction n with
  | nil => simp [splitFirstColon]
  | cons b rest ih =>
    have hb : ¬(b = 58) := fun hb => h (by simp [hb])
    have hrest : 58 ∉ rest := fun hr => h (List.mem_cons_of_mem _ hr)
    simp [splitFirstColon, hb, ih hrest]

/-- Go map lookup misses exactly when no pair with that key is present. -/
theorem lookupFormatter_eq_none_iff (i : Interpolator) (name : List Nat) :
    lookupFormatter i name = none ↔ ∀ f : Formatter, (name, f) ∉ i := by
  induction i with
  | nil => simp [lookupFormatter]
  | cons p rest ih =>
    obtain ⟨k, f⟩ := p
    by_cases hk : k = name
    · subst hk
      simp only [lookupFormatter, if_pos rfl]
      constructor
      · intro h; cases h
      · intro hall
        exact absurd (List.mem_cons_self (k, f) rest) (hall f)
    · simp only [lookupFormatter, if_neg hk, ih, List.mem_cons]
      constructor
      · intro hall g hg
        rcases hg with heq | hmem
        · exact hk (congrArg Prod.fst heq).symm
        · exact hall g hmem
      · intro hall g hmem
        exact hall g (Or.inr hmem)

/-- Appending a fresh binding makes it visible to lookup. -/
theorem lookupFormatter_append_self (i : Interpolator) (name : List Nat) (h : Formatter)
    (hnone : lookupFormatter i name = none) :
    lookupFormatter (i ++ [(name, h)]) name = some h := by
  induction i with
  | nil => simp [lookupFormatter]
  | cons p rest ih =>
    obtain ⟨k, f⟩ := p
    by_cases hk : k = name
    · subst hk
      simp [lookupFormatter] at hnone
    · simp only [lookupFormatter, if_neg hk, List.cons_append] at hnone ⊢
      exact ih hnone

/-- Arguments beyond the ones an error-free interpolation run actually
consumed are inert: appending extra arguments leaves the output and the
success unchanged, the extras passing through to the leftover list. -/
theorem IW_extra_args (i : Interpolator) :
    ∀ (input : List Nat) (args extra : List Val) (out : List Nat) (rem : List Val),
      InterpWriter i input args = (out, none, rem) → rem ≠ [] →
      InterpWriter i input (args ++ extra) = (out, none, rem ++ extra) := by
  suffices h : ∀ n (input : List Nat) (args extra : List Val) (out : List Nat)
      (rem : List Val), input.length ≤ n →
      InterpWriter i input args = (out, none, rem) → rem ≠ [] →
      InterpWriter i input (args ++ extra) = (out, none, rem ++ extra) by
    exact fun input args extra out rem => h input.length input args extra out rem le_rfl
  intro n
  induction n with
  | zero =>
    intro input args extra out rem hlen hrun hrem
    have hnil : input = [] := List.length_eq_zero.mp (Nat.le_zero.mp hlen)
    subst hnil
    rw [IW_eof (show readBytesUntilUnescDelim 37 [] = .eof [] from rfl)] at hrun
    simp only [Prod.mk.injEq] at hrun
    obtain ⟨ho, -, hr⟩ := hrun
    subst ho; subst hr
    rw [IW_eof (show readBytesUntilUnescDelim 37 [] = .eof [] from rfl)]
  | succ n ihn =>
    intro input args extra out rem hlen hrun hrem
    cases h1 : readBytesUntilUnescDelim 37 input with
    | eof lit =>
      rw [IW_eof h1] at hrun
      simp only [Prod.mk.injEq] at hrun
      obtain ⟨ho, -, hr⟩ := hrun
      subst ho; subst hr
      rw [IW_eof h1]
    | found lit rest =>
      cases h2 : readBytesUntilUnescDelim 59 rest with
      | eof x =>
        rw [IW_incomplete h1 h2] at hrun
        simp only [Prod.mk.injEq] at hrun
        exact absurd hrun.2.1 (by simp)
      | found rf rest2 =>
        have hlen2 : rest2.length ≤ n := by
          have := lt_trans (scan_found_rest_length h2) (scan_found_rest_length h1)
          omega
        by_cases h3 : (splitFirstColon rf).1 = [37]
        · rw [IW_escape h1 h2 h3] at hrun
          rcases hrec : InterpWriter i rest2 args with ⟨o2, e2, a2⟩
          rw [hrec] at hrun
          simp only [prependOut, Prod.mk.injEq] at hrun
          obtain ⟨ho, he, ha⟩ := hrun
          have hrec2 := ihn rest2 args extra o2 rem hlen2 (by rw [hrec, he, ha]) hrem
          rw [IW_escape h1 h2 h3, hrec2]
          simp [prependOut, ho]
        · cases h4 : lookupFormatter i (splitFirstColon rf).1 with
          | none =>
            rw [IW_unknown h1 h2 h3 h4] at hrun
            simp only [Prod.mk.injEq] at hrun
            exact absurd hrun.2.1 (by simp)
          | some f =>
            cases args with
            | nil =>
              rw [IW_no_arg h1 h2 h3 h4] at hrun
              rcases hrec : InterpWriter i rest2 [] with ⟨o2, e2, a2⟩
              rw [hrec] at hrun
              simp only [prependOut, Prod.mk.injEq] at hrun
              have ha2 : a2 = [] := by
                have hnil2 := IW_rem_nil i rest2
                rw [hrec] at hnil2
                exact hnil2
              exact absurd (hrun.2.2.symm.trans ha2) hrem
            | cons a args' =>
              rcases h5 : f a (splitFirstColon rf).2 with ⟨fo, fe⟩
              cases fe with
              | some e =>
                rw [IW_formatter_err h1 h2 h3 h4 h5] at hrun
                simp only [Prod.mk.injEq] at hrun
                exact absurd hrun.2.1 (by simp)
              | none =>
                rw [IW_formatter_ok h1 h2 h3 h4 h5] at hrun
                rcases hrec : InterpWriter i rest2 args' with ⟨o2, e2, a2⟩
                rw [hrec] at hrun
                simp only [prependOut, Prod.mk.injEq] at hrun
                obtain ⟨ho, he, ha⟩ := hrun
                have hrec2 := ihn rest2 args' extra o2 rem hlen2 (by rw [hrec, he, ha]) hrem
                have hcons : (a :: args') ++ extra = a :: (args' ++ extra) := rfl
                rw [hcons, IW_formatter_ok h1 h2 h3 h4 h5, hrec2]
                simp [prependOut, ho]

/-- C1: finalization of a pipeline (`WriterStack.Finish`, and identically
`writerStack.Close`) visits the pushed layers in reverse of append order,
invokes the close capability only on layers that expose one, returns at
the first close error skipping all remaining earlier-pushed layers, and
closes only layers from the component list — never the base sink, which
is not in that list. -/
theorem finish_visits_closers_in_reverse (ws : WriterStack) :
    WriterStackFinish ws = specFinalize ws.components
    ∧ writerStackClose ws = specFinalize ws.components
    ∧ ∀ w ∈ (WriterStackFinish ws).1, w ∈ ws.components := by
  refine ⟨closeLoop_eq_specCloseSeq _, closeLoop_eq_specCloseSeq _, fun w hw => ?_⟩
  exact List.mem_reverse.mp (closeLoop_subset _ w hw)

/-- C2: evaluating the code at the failing input: interpolating `x%RAW;`
with an empty argument list never invokes the RAW handler with any
sentinel; the engine itself writes the placeholder text
`x%RAW error: No arg;` (bytes below) and reports success.  This
contradicts the claim (and the package's own Formatter documentation and
the newer test suite, which expect the `NotGiven` sentinel to reach the
handler, RAW then failing with `ErrNotGiven`). -/
theorem exhausted_args_placeholder_text :
    InterpWriter NewInterpolator [120, 37, 82, 65, 87, 59] []
      = ([120, 37, 82, 65, 87, 32, 101, 114, 114, 111, 114, 58, 32, 78,
          111, 32, 97, 114, 103, 59], none, []) := by
  rw [IW_no_arg
      (show readBytesUntilUnescDelim 37 [120, 37, 82, 65, 87, 59]
        = .found [120] [82, 65, 87, 59] by decide)
      (show readBytesUntilUnescDelim 59 [82, 65, 87, 59]
        = .found [82, 65, 87] [] by decide)
      (by decide)
      (show lookupFormatter NewInterpolator (splitFirstColon [82, 65, 87]).1
        = some raw from rfl)]
  rw [IW_eof (show readBytesUntilUnescDelim 37 [] = .eof [] from rfl)]
  rfl

/-- C3: for every input byte sequence and delimiter byte, the scanner
returns exactly the escape-processed bytes preceding the first unescaped
delimiter (each backslash removed, the following byte kept verbatim, the
delimiter excluded), and signals end-of-input exactly when no unescaped
delimiter occurs — in particular a trailing lone backslash is dropped. -/
theorem scanner_returns_bytes_before_unescaped_delim (delim : Nat) (input : List Nat) :
    (readBytesUntilUnescDelim delim input).out
      = ((tokenize input).takeWhile (fun t => !(t.isDelim delim))).map Tok.val
    ∧ ((readBytesUntilUnescDelim delim input).isEof = true
      ↔ ∀ t ∈ tokenize input, t.isDelim delim = false) :=
  ⟨scan_out_spec delim input, scan_isEof_spec delim input⟩

/-- C4 counterexample: in the directive body written `a\:b;` the
backslash before the colon is consumed by the semicolon scan, and the
remaining bare colon still acts as the name/arguments separator: the
stage parses to name `a` with arguments `b`, not — as the claim requires
— to name `a:b` with the no-arguments value. -/
theorem escaped_colon_still_splits :
    splitFirstColon (readBytesUntilUnescDelim 59 [97, 92, 58, 98, 59]).out
        = ([97], some [98])
    ∧ splitFirstColon (readBytesUntilUnescDelim 59 [97, 92, 58, 98, 59]).out
        ≠ ([97, 58, 98], none) := by
  decide

/-- C4 (amended): the (name, args) split happens at the first colon byte
of the stage bytes as the scanner already unescaped them — a backslash
written before a colon in the template is removed by the scan and does
not keep the colon from separating; a stage with no colon yields the
distinguished no-arguments value `none`, distinguishable from the
explicit empty argument string `some []`. -/
theorem stage_splits_at_first_colon (n a s : List Nat)
    (hn : 58 ∉ n) (hs : 58 ∉ s) :
    splitFirstColon (n ++ 58 :: a) = (n, some a)
    ∧ splitFirstColon s = (s, none)
    ∧ (splitFirstColon (n ++ [58])).2 = some []
    ∧ (splitFirstColon n).2 = none := by
  refine ⟨splitFirstColon_append hn, splitFirstColon_no_colon hs, ?_, ?_⟩
  · rw [show (n ++ [58] : List Nat) = n ++ 58 :: [] from rfl,
      splitFirstColon_append hn]
  · rw [splitFirstColon_no_colon hn]

/-- C4 witness: the amended split behaviour at the stage name `p`. -/
theorem stage_splits_at_first_colon_witness :
    splitFirstColon ([112] ++ 58 :: [104, 105]) = ([112], some [104, 105])
    ∧ splitFirstColon [82, 65, 87] = ([82, 65, 87], none)
    ∧ (splitFirstColon ([112] ++ [58])).2 = some []
    ∧ (splitFirstColon [112]).2 = none :=
  stage_splits_at_first_colon [112] [104, 105] [82, 65, 87] (by decide) (by decide)

/-- C5 counterexample: the template `a\b` contains no `%` byte, yet
interpolation writes `ab` — the backslash is eaten by the literal-span
scan — so the output is not the template bytes verbatim. -/
theorem literal_backslash_not_verbatim :
    (37 : Nat) ∉ [97, 92, 98]
    ∧ InterpWriter NewInterpolator [97, 92, 98] [] = ([97, 98], none, [])
    ∧ ([97, 98] : List Nat) ≠ [97, 92, 98] := by
  refine ⟨by decide, ?_, by decide⟩
  rw [IW_eof (show readBytesUntilUnescDelim 37 [97, 92, 98] = .eof [97, 98] by decide)]

/-- C5 (amended): for every template with no `%` byte, interpolation
succeeds, consumes no argument, and writes the escape-processed template
(each backslash removed, the following byte verbatim, a trailing lone
backslash dropped); on backslash-free templates this is the template
verbatim. -/
theorem no_percent_template_unescaped_output (i : Interpolator) (input : List Nat)
    (args : List Val) (h : 37 ∉ input) :
    InterpWriter i input args = ((tokenize input).map Tok.val, none, args) :=
  IW_eof (scan_no_delim_eof h)

/-- C5 witness: the percent-free template `xy` is echoed verbatim with
the argument list untouched. -/
theorem no_percent_template_witness :
    InterpWriter NewInterpolator [120, 121] [Val.str [5]]
      = ([120, 121], none, [Val.str [5]]) :=
  no_percent_template_unescaped_output NewInterpolator [120, 121] [Val.str [5]]
    (by decide)

/-- C6: when an unescaped `%` opens a directive and the input ends before
an unescaped `;`, interpolation returns `ErrIncompleteFormatString`, and
the output consists exactly of the literal bytes flushed before the `%` —
they remain written, and nothing follows them. -/
theorem unterminated_directive_error (i : Interpolator) (input : List Nat)
    (args : List Val) (lit rest x : List Nat)
    (h1 : readBytesUntilUnescDelim 37 input = .found lit rest)
    (h2 : readBytesUntilUnescDelim 59 rest = .eof x) :
    InterpWriter i input args = (lit, some .incompleteFormatString, args) :=
  IW_incomplete h1 h2

/-- C6 witness: the template `x%RAW` (no closing `;`) with one argument
fails with the incomplete-format-string error after writing only `x`. -/
theorem unterminated_directive_error_witness :
    InterpWriter NewInterpolator [120, 37, 82, 65, 87] [Val.str [121]]
      = ([120], some .incompleteFormatString, [Val.str [121]]) :=
  unterminated_directive_error NewInterpolator [120, 37, 82, 65, 87]
    [Val.str [121]] [120] [82, 65, 87] [82, 65, 87] (by decide) (by decide)

/-- C7: starting from a fresh stack over a base writer, as long as every
encoder invocation returns a writer other than the base (the documented
encoder contract: a new sink wrapping the current top), no sequence of
successful pushes ever places the base writer in the component list, and
finalization consequently never closes the base writer — whether or not
it exposes a close capability. -/
theorem base_writer_never_in_layer_list (base : W)
    (pushes : List (Encoder × Option (List Nat))) (ws' : WriterStack)
    (henc : ∀ p ∈ pushes, ∀ w w', p.1 w p.2 = some w' → w' ≠ base)
    (hrun : runPushes (NewWriterStack base) pushes = some ws') :
    base ∉ ws'.components ∧ ∀ w ∈ (WriterStackFinish ws').1, w ≠ base := by
  have hmem : base ∉ ws'.components :=
    runPushes_base_not_mem pushes (NewWriterStack base) ws' base
      (by simp [NewWriterStack]) henc hrun
  refine ⟨hmem, fun w hw hweq => ?_⟩
  subst hweq
  exact hmem (List.mem_reverse.mp (closeLoop_subset _ _ hw))

/-- A concrete encoder for exercising the stack: wraps the given writer
in a fresh closable layer with the next identifier. -/
def encWrap : Encoder := fun w _ => some ⟨w.id + 1, true, none⟩

/-- C7 witness: one successful push of a wrapping encoder over the
closable base writer 0 leaves the component list free of the base. -/
theorem base_writer_never_in_layer_list_witness :
    (⟨0, true, none⟩ : W) ∉ (⟨⟨1, true, none⟩, [⟨1, true, none⟩]⟩ : WriterStack).components := by
  have henc : ∀ p ∈ [((encWrap : Encoder), (none : Option (List Nat)))],
      ∀ w w', p.1 w p.2 = some w' → w' ≠ (⟨0, true, none⟩ : W) := by
    intro p hp w w' hw
    simp only [List.mem_singleton] at hp
    subst hp
    simp only [encWrap, Option.some.injEq] at hw
    subst hw
    intro hcontra
    simp only [W.mk.injEq] at hcontra
    exact Nat.succ_ne_zero w.id hcontra.1
  have hrun : runPushes (NewWriterStack ⟨0, true, none⟩)
      [((encWrap : Encoder), (none : Option (List Nat)))]
      = some ⟨⟨1, true, none⟩, [⟨1, true, none⟩]⟩ := rfl
  exact (base_writer_never_in_layer_list ⟨0, true, none⟩ _ _ henc hrun).1

/-- C8: `AddFormat` returns the already-exists error carrying exactly the
requested name if and only if the name already has a registration; any
error it returns is of that one form; on a collision the registry is left
unchanged; on a fresh name it succeeds and the handler becomes
registered under the name. -/
theorem addformat_collision_iff_registered (i : Interpolator) (format : List Nat)
    (handler : Formatter) :
    ((AddFormat i format handler).2 = some (.alreadyExists format)
        ↔ ∃ f : Formatter, (format, f) ∈ i)
    ∧ (∀ e, (AddFormat i format handler).2 = some e → e = .alreadyExists format)
    ∧ ((∃ f : Formatter, (format, f) ∈ i) → (AddFormat i format handler).1 = i)
    ∧ ((¬ ∃ f : Formatter, (format, f) ∈ i) →
        (AddFormat i format handler).2 = none
        ∧ lookupFormatter (AddFormat i format handler).1 format = some handler) := by
  cases hl : lookupFormatter i format with
  | some f0 =>
    have hex : ∃ f : Formatter, (format, f) ∈ i := by
      by_contra hno
      push_neg at hno
      rw [(lookupFormatter_eq_none_iff i format).mpr hno] at hl
      cases hl
    refine ⟨?_, ?_, ?_, ?_⟩
    · simp only [AddFormat, hl]
      exact ⟨fun _ => hex, fun _ => trivial⟩
    · intro e he
      simp only [AddFormat, hl, Option.some.injEq] at he
      exact he.symm
    · intro _
      simp [AddFormat, hl]
    · intro hno
      exact absurd hex hno
  | none =>
    have hnx : ¬ ∃ f : Formatter, (format, f) ∈ i := by
      rintro ⟨f, hf⟩
      exact ((lookupFormatter_eq_none_iff i format).mp hl f) hf
    refine ⟨?_, ?_, ?_, ?_⟩
    · simp only [AddFormat, hl]
      constructor
      · intro h; cases h
      · intro hex; exact absurd hex hnx
    · intro e he
      simp only [AddFormat, hl] at he
      cases he
    · intro hex; exact absurd hex hnx
    · intro _
      simp only [AddFormat, hl]
      exact ⟨trivial, lookupFormatter_append_self i format handler hl⟩

/-- C8 witness: re-registering RAW collides, naming RAW and leaving the
registry unchanged. -/
theorem addformat_collision_witness :
    (AddFormat NewInterpolator [82, 65, 87] raw).1 = NewInterpolator
    ∧ (AddFormat NewInterpolator [82, 65, 87] raw).2
        = some (.alreadyExists [82, 65, 87]) := by
  have h := addformat_collision_iff_registered NewInterpolator [82, 65, 87] raw
  have hex : ∃ f : Formatter, ([82, 65, 87], f) ∈ NewInterpolator :=
    ⟨raw, by simp [NewInterpolator]⟩
  exact ⟨h.2.2.1 hex, h.1.mpr hex⟩

/-- C9: when interpolation completes without error with arguments left
over, supplying yet more arguments is never an error and produces no
additional output: the output is unchanged and the extras pass through
unconsumed. -/
theorem surplus_args_ignored (i : Interpolator) (input : List Nat)
    (args extra : List Val) (out : List Nat) (rem : List Val)
    (hrun : InterpWriter i input args = (out, none, rem)) (hrem : rem ≠ []) :
    InterpWriter i input (args ++ extra) = (out, none, rem ++ extra) :=
  IW_extra_args i input args extra out rem hrun hrem

/-- C9 witness: `x%RAW;` consuming one of two arguments succeeds with one
left over; appending a third changes neither output nor success. -/
theorem surplus_args_ignored_witness :
    InterpWriter NewInterpolator [120, 37, 82, 65, 87, 59]
        ([Val.str [121], Val.str [122]] ++ [Val.str [123]])
      = ([120, 121], none, [Val.str [122]] ++ [Val.str [123]]) := by
  have hrun : InterpWriter NewInterpolator [120, 37, 82, 65, 87, 59]
      [Val.str [121], Val.str [122]] = ([120, 121], none, [Val.str [122]]) := by
    rw [IW_formatter_ok
        (show readBytesUntilUnescDelim 37 [120, 37, 82, 65, 87, 59]
          = .found [120] [82, 65, 87, 59] by decide)
        (show readBytesUntilUnescDelim 59 [82, 65, 87, 59]
          = .found [82, 65, 87] [] by decide)
        (by decide)
        (show lookupFormatter NewInterpolator (splitFirstColon [82, 65, 87]).1
          = some raw from rfl)
        (show raw (Val.str [121]) (splitFirstColon [82, 65, 87]).2
          = ([121], none) from rfl)]
    rw [IW_eof (show readBytesUntilUnescDelim 37 [] = .eof [] from rfl)]
    rfl
  exact surplus_args_ignored NewInterpolator [120, 37, 82, 65, 87, 59]
    [Val.str [121], Val.str [122]] [Val.str [123]] [120, 121] [Val.str [122]]
    hrun (by simp)

/-- C10: whenever the underlying interpolation fails with an error,
`InterpStr` returns the empty string together with that same error,
discarding whatever partial output the run had produced. -/
theorem interpstr_empty_on_error (i : Interpolator) (input : List Nat)
    (args : List Val) (out : List Nat) (e : Err) (rem : List Val)
    (h : InterpWriter i input args = (out, some e, rem)) :
    InterpStr i input args = ([], some e) := by
  unfold InterpStr
  rw [h]

/-- C10 witness: `x%RAW` fails after partially writing `x`; `InterpStr`
discards the partial output and returns the empty string with the
error. -/
theorem interpstr_empty_on_error_witness :
    InterpStr NewInterpolator [120, 37, 82, 65, 87] [] = ([], some .incompleteFormatString)
    ∧ (InterpWriter NewInterpolator [120, 37, 82, 65, 87] []).1 = [120] := by
  have h : InterpWriter NewInterpolator [120, 37, 82, 65, 87] []
      = ([120], some .incompleteFormatString, []) :=
    @IW_incomplete NewInterpolator [120, 37, 82, 65, 87] [] [120]
      [82, 65, 87] [82, 65, 87] (by decide) (by decide)
  exact ⟨interpstr_empty_on_error NewInterpolator [120, 37, 82, 65, 87] [] [120]
    .incompleteFormatString [] h, by rw [h]⟩
